import Mathlib

/-!
Verification of `src/main.py` (atlas-ti-parser): a single-pass batch
transform from a qualitative-coding XML export to a twelve-column
tactic-by-family table.

The embedding works over the already-parsed attribute values: strings are
`List Char` (ASCII model of Python `str`; the regular expressions `\d`,
`\s` and `int()` are modelled over their ASCII alphabet), Python `dict`
is an association list built by in-place-update insertion (preserving
first-insertion key order, as CPython dicts do), Python `set` is a
duplicate-free list read only through sorted views, and code paths that
can raise (`dict[k]` lookups, `astype(int)`) return `Except PyError`.
Python `sorted` is modelled by a stable insertion sort `sortBy`, which
agrees with any stable sort and is kernel-evaluable.
-/

abbrev Str := List Char

inductive PyError where
  | keyError : PyError
  | valueError : PyError
  | overflowError : PyError
deriving DecidableEq, Repr

/-- ASCII model of the `\d` character class used by `re` in `main.py`. -/
def isDig (c : Char) : Bool := decide ('0' ≤ c ∧ c ≤ '9')

/-- ASCII model of the `\s` character class and of `str.strip`'s default
whitespace set: space, tab, newline, carriage return, vertical tab, form feed. -/
def isSpc (c : Char) : Bool :=
  decide (c = ' ' ∨ c = '\t' ∨ c = '\n' ∨ c = '\r' ∨ c = '\x0b' ∨ c = '\x0c')

/-- Remove trailing whitespace (the `\s*$` tail of the suffix regex, and
the right half of `str.strip`). -/
def dropTrailSpc (s : Str) : Str := (s.reverse.dropWhile isSpc).reverse

/-- Python `str.strip()`: remove leading and trailing whitespace. -/
def stripSpc (s : Str) : Str := dropTrailSpc (s.dropWhile isSpc)

/-- Python string comparison: lexicographic by code point. -/
def strLe : Str → Str → Bool
  | [], _ => true
  | _ :: _, [] => false
  | a :: as, b :: bs => if a = b then strLe as bs else decide (a < b)

/-- Stable insertion step: `x` goes before the first element `y` with
`le x y` (so an element keeps its place relative to earlier ties). -/
def insSorted {α : Type} (le : α → α → Bool) (x : α) : List α → List α
  | [] => [x]
  | y :: ys => if le x y then x :: y :: ys else y :: insSorted le x ys

/-- Stable sort (model of Python `sorted`). -/
def sortBy {α : Type} (le : α → α → Bool) (l : List α) : List α :=
  l.foldr (insSorted le) []

/-- Python `sorted` on a set of strings: lexicographically sorted list. -/
def sortStr (l : List Str) : List Str := sortBy strLe l

/-- Python `sep.join(xs)`. -/
def joinSep (sep : Str) : List Str → Str
  | [] => []
  | [x] => x
  | x :: y :: xs => x ++ sep ++ joinSep sep (y :: xs)

/-- Numeric value of a digit string (most significant first). -/
def digitsVal (s : Str) : Nat := s.foldl (fun a c => a * 10 + (c.toNat - '0'.toNat)) 0

/-- Python `int(s)` on an ASCII string: optional surrounding whitespace,
optional sign, one or more digits; `none` models the `ValueError`. -/
def pyInt? (s : Str) : Option Int :=
  match stripSpc s with
  | '-' :: ds => if ds ≠ [] ∧ ds.all isDig then some (-(digitsVal ds : Int)) else none
  | '+' :: ds => if ds ≠ [] ∧ ds.all isDig then some (digitsVal ds : Int) else none
  | ds => if ds ≠ [] ∧ ds.all isDig then some (digitsVal ds : Int) else none

/-- Python `dict` read: `d.get(k)` / `d[k]`. With dicts built by
`dictInsert` the keys are unique, so first match is the (unique) match. -/
def dictGet {β : Type} (k : Str) : List (Str × β) → Option β
  | [] => none
  | (k', v) :: rest => if k' = k then some v else dictGet k rest

/-- Python `dict` write `d[k] = v`: update in place if the key exists
(keeping its position, as CPython dicts do), otherwise append. -/
def dictInsert {β : Type} (m : List (Str × β)) (k : Str) (v : β) : List (Str × β) :=
  match m with
  | [] => [(k, v)]
  | (k', v') :: rest => if k' = k then (k, v) :: rest else (k', v') :: dictInsert rest k v

/-! ### 4.1 Code Index Builder
`re.search(r"\s*\(T(\d+)\)\s*$", raw)`: after the trailing whitespace is
discarded the string must end in `)`, preceded by a maximal nonempty digit
run, preceded by `T(` — the leftmost-match semantics of the `$`-anchored
regex. On a match the source stores `raw[:m.start()].strip()` as the
display name (`m.start()` sits before the whitespace run preceding `(`,
so the remaining prefix is stripped on both sides) and the digits as the
override. -/

/-- Match the trailing `\s*\(T(\d+)\)\s*$` pattern: returns the captured
digits together with the part of `raw` before the matched
whitespace-plus-suffix. -/
def tSuffix (raw : Str) : Option (Str × Str) :=
  match (dropTrailSpc raw).reverse with
  | ')' :: t =>
    match t.drop (t.takeWhile isDig).length with
    | 'T' :: '(' :: rest =>
      if t.takeWhile isDig = [] then none
      else some ((t.takeWhile isDig).reverse, rest.reverse)
    | _ => none
  | _ => none

/-- One iteration of the code-index loop: the `(display name, override?)`
recorded for a raw code name. -/
def codeEntry (raw : Str) : Str × Option Str :=
  match tSuffix raw with
  | some (ds, pre) => (stripSpc pre, some ds)
  | none => (raw, none)

/-- The body of the loop over `./codes/code`: record the display name,
and the override when the suffix matched. -/
def codeStep (acc : List (Str × Str) × List (Str × Str)) (c : Str × Str) :
    List (Str × Str) × List (Str × Str) :=
  match codeEntry c.2 with
  | (nm, some tn) => (dictInsert acc.1 c.1 nm, dictInsert acc.2 c.1 tn)
  | (nm, none) => (dictInsert acc.1 c.1 nm, acc.2)

/-- The loop over `./codes/code`: builds `code_to_name` and
`code_to_tactic_override` as dicts keyed by code id. -/
def buildCodeIndex (codes : List (Str × Str)) : List (Str × Str) × List (Str × Str) :=
  codes.foldl codeStep ([], [])

/-! ### 4.2 Quotation Index Builder & Tactic Resolver -/

/-- Attempt to match `\(AT(\d+)\)` at the head of the string (one
candidate position of `re.search`). -/
def tryAt : Str → Option Str
  | '(' :: 'A' :: 'T' :: rest =>
    match rest.drop (rest.takeWhile isDig).length with
    | ')' :: _ =>
      if rest.takeWhile isDig = [] then none else some (rest.takeWhile isDig)
    | _ => none
  | _ => none

/-- `re.search(r"\(AT(\d+)\)", name)`: leftmost match wins. -/
def atMarker : Str → Option Str
  | [] => none
  | c :: rest =>
    match tryAt (c :: rest) with
    | some ds => some ds
    | none => atMarker rest

structure Quote where
  qid : Str
  order : Nat
  tactic : Option Str
deriving DecidableEq, Repr

/-- Python truthiness of the `tactic` field (`None` and `""` are falsy). -/
def qTruthy (t : Option Str) : Bool :=
  match t with
  | some s => s ≠ []
  | none => false

/-- The `enumerate` loop over `.//primDoc//quotations/q`:
one record per quotation, `order` = zero-based document position,
`tactic` = the optional `(AT<digits>)` capture from the name. -/
def buildQuotes (qs : List (Str × Str)) : List Quote :=
  qs.enum.map (fun p => ⟨p.2.1, p.1, atMarker p.2.2⟩)

/-- `quotes_by_id = {q["qid"]: q for q in quotes}`. -/
def quotes_by_id (quotes : List Quote) : List (Str × Quote) :=
  quotes.foldl (fun m q => dictInsert m q.qid q) []

/-- `title_quotes = sorted([q for q in quotes if q["tactic"]], key=order)`. -/
def title_quotes (quotes : List Quote) : List Quote :=
  sortBy (fun a b => decide (a.order ≤ b.order)) (quotes.filter (fun q => qTruthy q.tactic))

/-- `find_tactic_for(qid)`: `quotes_by_id[qid]` raises `KeyError` on an
unknown id; otherwise scan `reversed(title_quotes)` for the first record
with `order <= target order` and return its tactic (`None` if the scan
falls through). -/
def find_tactic_for (quotes : List Quote) (qid : Str) : Except PyError (Option Str) :=
  match dictGet qid (quotes_by_id quotes) with
  | none => .error .keyError
  | some q =>
    .ok (((title_quotes quotes).reverse.find? (fun tq => decide (tq.order ≤ q.order))).bind Quote.tactic)

/-! ### 4.3 Tactic Assignment Aggregator -/

/-- `defaultdict(set)`: `tactic_codes[tac].add(cid)`. The per-tactic code
collection is a duplicate-free list (set semantics); key order is
first-insertion order (dict semantics). -/
def addCid (m : List (Str × List Str)) (tac cid : Str) : List (Str × List Str) :=
  match m with
  | [] => [(tac, [cid])]
  | (k, s) :: rest =>
    if k = tac then (k, if cid ∈ s then s else s ++ [cid]) :: rest
    else (k, s) :: addCid rest tac cid

/-- One iteration of the link loop:
`tac = code_to_tactic_override.get(cid) or find_tactic_for(qid)` — the
`or` short-circuits, so `find_tactic_for` only runs when the override is
absent or falsy — then `if tac: tactic_codes[tac].add(cid)`. -/
def processLink (quotes : List Quote) (c2o : List (Str × Str))
    (m : List (Str × List Str)) (link : Str × Str) : Except PyError (List (Str × List Str)) :=
  let tacE : Except PyError (Option Str) :=
    match dictGet link.1 c2o with
    | some t => if t = [] then find_tactic_for quotes link.2 else .ok (some t)
    | none => find_tactic_for quotes link.2
  match tacE with
  | .error e => .error e
  | .ok (some t) => .ok (if t = [] then m else addCid m t link.1)
  | .ok none => .ok m

/-- The loop over `./links/objectSegmentLinks/codings/iLink`. -/
def tactic_codes (quotes : List Quote) (c2o : List (Str × Str)) :
    List (Str × Str) → List (Str × List Str) → Except PyError (List (Str × List Str))
  | [], m => .ok m
  | link :: rest, m =>
    match processLink quotes c2o m link with
    | .error e => .error e
    | .ok m' => tactic_codes quotes c2o rest m'

/-! ### 4.4 Family Pivot Builder -/

/-- The dict comprehension over `./families/codeFamilies/codeFamily`:
family id → (family name, member code ids). -/
def buildFamilies (fams : List (Str × Str × List Str)) : List (Str × Str × List Str) :=
  fams.foldl (fun m f => dictInsert m f.1 f.2) []

/-- `code_to_name[c]` for each hit: raises `KeyError` on an unknown code id. -/
def namesOf (c2n : List (Str × Str)) : List Str → Except PyError (List Str)
  | [] => .ok []
  | c :: cs =>
    match dictGet c c2n with
    | none => .error .keyError
    | some n =>
      match namesOf c2n cs with
      | .error e => .error e
      | .ok ns => .ok (n :: ns)

/-- One cell: `hits = sorted(cids & set(fam_code_ids))` (set intersection,
so duplicates collapse, then lexicographic sort **by code id**), then
`"; ".join(code_to_name[c] for c in hits) if hits else ""`. -/
def cellFor (c2n : List (Str × Str)) (cids : List Str) (famIds : List Str) :
    Except PyError Str :=
  match namesOf c2n (sortStr ((cids.filter (fun c => decide (c ∈ famIds))).dedup)) with
  | .error e => .error e
  | .ok ns => .ok (joinSep ("; ".data) ns)

/-- The inner loop over `families.items()` building one row dict keyed by
family name. -/
def buildRow (c2n : List (Str × Str)) (cids : List Str) :
    List (Str × Str × List Str) → List (Str × Str) → Except PyError (List (Str × Str))
  | [], row => .ok row
  | f :: rest, row =>
    match cellFor c2n cids f.2.2 with
    | .error e => .error e
    | .ok cell => buildRow c2n cids rest (dictInsert row f.2.1 cell)

/-- The outer loop over `tactic_codes.items()`: one `(tactic, row)` pair
per discovered tactic, in key-insertion order. -/
def buildOutput (c2n : List (Str × Str)) (fams : List (Str × Str × List Str)) :
    List (Str × List Str) → Except PyError (List (Str × List (Str × Str)))
  | [] => .ok []
  | (tac, cids) :: rest =>
    match buildRow c2n cids fams [] with
    | .error e => .error e
    | .ok row =>
      match buildOutput c2n fams rest with
      | .error e => .error e
      | .ok out => .ok ((tac, row) :: out)

/-- The twelve fixed column headers (`cols` in the source). -/
def cols12 : List Str :=
  ["1. Title".data,
   "2. Description".data,
   "3. Participant".data,
   "4. Related Software Artifact".data,
   "5. Context".data,
   "6. Software Feature".data,
   "7. Tactic Intent".data,
   "8. Target Quality Attribute".data,
   "9. Other Related Quality Attributes".data,
   "10. Measured Impact".data,
   "11. Level of abstraction".data,
   "12. Tool or framework".data]

/-- `df.reindex(columns=cols)`: each row is projected onto the twelve
fixed columns in order; a column absent from the row dict becomes NaN,
which `to_excel` renders as an empty cell — modelled as `""`. -/
def reindexRow (row : List (Str × Str)) : List Str :=
  cols12.map (fun c => (dictGet c row).getD [])

/-- Bounds of the signed 64-bit `int64` dtype that `astype(int)`
converts to. -/
def int64Min : Int := -(2 ^ 63)

def int64Max : Int := 2 ^ 63 - 1

/-- `df.sort_index(key=lambda idx: idx.astype(int))`: `astype(int)`
converts every index key to `int64` first — a non-numeric key raises
`ValueError` and an integer key outside the `int64` range raises
`OverflowError` — and only then are the rows sorted by the converted
integer. (The conversion scans elementwise, so with several offending
keys the program reports the first one's exception; the pipeline only
ever produces digit-string keys, for which the two phases modelled here
coincide with that scan.) -/
def sortRows (rows : List (Str × List Str)) : Except PyError (List (Str × List Str)) :=
  if rows.all (fun r => (pyInt? r.1).isSome) then
    if rows.all (fun r =>
        decide (int64Min ≤ (pyInt? r.1).getD 0 ∧ (pyInt? r.1).getD 0 ≤ int64Max)) then
      .ok (sortBy (fun a b => decide ((pyInt? a.1).getD 0 ≤ (pyInt? b.1).getD 0)) rows)
    else
      .error .overflowError
  else
    .error .valueError

structure Table where
  headers : List Str
  rows : List (Str × List Str)
deriving Repr

structure Input where
  codes : List (Str × Str)
  quotations : List (Str × Str)
  families : List (Str × Str × List Str)
  links : List (Str × Str)

/-- The whole pipeline of `main.py` after XML parsing: build the code
index, the quotation index and the family dict; aggregate tactic→codes
over the links; pivot to rows; reindex onto the twelve columns; sort by
the numeric tactic key. -/
def runPipeline (inp : Input) : Except PyError Table :=
  let ix := buildCodeIndex inp.codes
  let quotes := buildQuotes inp.quotations
  let fams := buildFamilies inp.families
  match tactic_codes quotes ix.2 inp.links [] with
  | .error e => .error e
  | .ok tc =>
    match buildOutput ix.1 fams tc with
    | .error e => .error e
    | .ok out =>
      match sortRows (out.map (fun r => (r.1, reindexRow r.2))) with
      | .error e => .error e
      | .ok sorted => .ok ⟨cols12, sorted⟩

/-! ### Generic lemmas about the model's sort and dict operations -/

theorem mem_insSorted {α : Type} (le : α → α → Bool) (x a : α) (l : List α) :
    a ∈ insSorted le x l ↔ a = x ∨ a ∈ l := by
  induction l with
  | nil => simp [insSorted]
  | cons y ys ih =>
    by_cases h : le x y
    · simp [insSorted, h]
    · simp [insSorted, h, ih]
      tauto

theorem insSorted_perm {α : Type} (le : α → α → Bool) (x : α) (l : List α) :
    (insSorted le x l).Perm (x :: l) := by
  induction l with
  | nil => simp [insSorted]
  | cons y ys ih =>
    by_cases h : le x y
    · simp [insSorted, h]
    · simp only [insSorted, h, if_neg]
      exact (ih.cons y).trans (List.Perm.swap x y ys)

theorem sortBy_perm {α : Type} (le : α → α → Bool) (l : List α) :
    (sortBy le l).Perm l := by
  induction l with
  | nil => simp [sortBy]
  | cons y ys ih =>
    exact (insSorted_perm le y (sortBy le ys)).trans (ih.cons y)

theorem mem_sortBy {α : Type} (le : α → α → Bool) (a : α) (l : List α) :
    a ∈ sortBy le l ↔ a ∈ l :=
  (sortBy_perm le l).mem_iff

theorem pairwise_insSorted {α : Type} (le : α → α → Bool)
    (htr : ∀ a b c, le a b = true → le b c = true → le a c = true)
    (hto : ∀ a b, le a b = true ∨ le b a = true)
    (x : α) (l : List α) (h : l.Pairwise (fun a b => le a b = true)) :
    (insSorted le x l).Pairwise (fun a b => le a b = true) := by
  induction l with
  | nil => simp [insSorted]
  | cons y ys ih =>
    rcases h with _ | ⟨hy, hys⟩
    by_cases hxy : le x y
    · simp only [insSorted, if_pos hxy]
      refine List.Pairwise.cons ?_ (List.Pairwise.cons hy hys)
      intro z hz
      rcases List.mem_cons.mp hz with rfl | hz
      · exact hxy
      · exact htr x y z hxy (hy z hz)
    · simp only [insSorted, if_neg hxy]
      refine List.Pairwise.cons ?_ (ih hys)
      intro z hz
      rcases (mem_insSorted le x z ys).mp hz with rfl | hz
      · rcases hto y z with h' | h'
        · exact h'
        · exact absurd h' (by simpa using hxy)
      · exact hy z hz

theorem pairwise_sortBy {α : Type} (le : α → α → Bool)
    (htr : ∀ a b c, le a b = true → le b c = true → le a c = true)
    (hto : ∀ a b, le a b = true ∨ le b a = true)
    (l : List α) : (sortBy le l).Pairwise (fun a b => le a b = true) := by
  induction l with
  | nil => simp [sortBy]
  | cons y ys ih => exact pairwise_insSorted le htr hto y (sortBy le ys) ih

theorem nodup_sortBy {α : Type} (le : α → α → Bool) (l : List α) (h : l.Nodup) :
    (sortBy le l).Nodup :=
  ((sortBy_perm le l).nodup_iff).mpr h

theorem dictGet_dictInsert {β : Type} (m : List (Str × β)) (k k' : Str) (v : β) :
    dictGet k (dictInsert m k' v) = if k' = k then some v else dictGet k m := by
  induction m with
  | nil => simp [dictInsert, dictGet]
  | cons a rest ih =>
    obtain ⟨ka, va⟩ := a
    by_cases h1 : ka = k'
    · by_cases h2 : k' = k
      · simp [dictInsert, dictGet, h1, h2]
      · have h3 : ¬ ka = k := fun e => h2 (h1 ▸ e)
        simp [dictInsert, dictGet, h1, h2, h3]
    · by_cases h2 : ka = k
      · have h3 : ¬ k' = k := fun e => h1 (by rw [h2, e])
        subst h2
        simp [dictInsert, dictGet, h1, h3]
      · simp [dictInsert, dictGet, h1, h2, ih]

/-- Values appearing in a `dictInsert`-built dict either satisfy an
invariant of the accumulator or are the inserted value. -/
theorem dictGet_dictInsert_inv {β : Type} (P : β → Prop) (m : List (Str × β)) (k' : Str) (v : β)
    (hm : ∀ k w, dictGet k m = some w → P w) (hv : P v) :
    ∀ k w, dictGet k (dictInsert m k' v) = some w → P w := by
  intro k w h
  rw [dictGet_dictInsert] at h
  by_cases hk : k' = k
  · simp [hk] at h; exact h ▸ hv
  · exact hm k w (by simpa [hk] using h)

/-- A descending scan from the right end: `find?` on a weakly descending
list returns a maximal element among those satisfying the bound. -/
theorem find?_le_some (o : Nat) (l : List Quote) (q : Quote)
    (hs : l.Pairwise (fun a b => b.order ≤ a.order))
    (h : l.find? (fun r => decide (r.order ≤ o)) = some q) :
    q ∈ l ∧ q.order ≤ o ∧ ∀ r ∈ l, r.order ≤ o → r.order ≤ q.order := by
  induction l with
  | nil => simp at h
  | cons y ys ih =>
    rcases hs with _ | ⟨hy, hys⟩
    by_cases hyo : y.order ≤ o
    · rw [List.find?_cons_of_pos _ (by simpa using hyo)] at h
      obtain rfl : y = q := by simpa using h
      refine ⟨List.mem_cons_self _ _, hyo, ?_⟩
      intro r hr _
      rcases List.mem_cons.mp hr with rfl | hr
      · exact le_refl _
      · exact hy r hr
    · rw [List.find?_cons_of_neg _ (by simpa using hyo)] at h
      obtain ⟨hq1, hq2, hq3⟩ := ih hys h
      refine ⟨List.mem_cons_of_mem _ hq1, hq2, ?_⟩
      intro r hr hro
      rcases List.mem_cons.mp hr with rfl | hr
      · exact absurd hro hyo
      · exact hq3 r hr hro

theorem find?_le_none (o : Nat) (l : List Quote)
    (h : l.find? (fun r => decide (r.order ≤ o)) = none) :
    ∀ q ∈ l, o < q.order := by
  intro q hq
  have := List.find?_eq_none.mp h q hq
  simpa [Nat.lt_iff_add_one_le, Nat.not_le] using this

/-! ### Facts about the suffix and marker regex models -/

theorem dropTrailSpc_append (s ws : Str) (h : ws.all isSpc = true) :
    dropTrailSpc (s ++ ws) = dropTrailSpc s := by
  unfold dropTrailSpc
  rw [List.reverse_append, List.dropWhile_append]
  have he : ws.reverse.dropWhile isSpc = [] := by
    rw [List.dropWhile_eq_nil_iff]
    intro x hx
    exact (List.all_eq_true.mp h) x (List.mem_reverse.mp hx)
  simp [he]

theorem dropTrailSpc_concat (s : Str) (c : Char) (h : isSpc c = false) :
    dropTrailSpc (s ++ [c]) = s ++ [c] := by
  unfold dropTrailSpc
  rw [List.reverse_append]
  simp [List.dropWhile_cons, h]

theorem takeWhile_digits (ds r : Str) (h : ds.all isDig = true) :
    (ds ++ 'T' :: r).takeWhile isDig = ds := by
  induction ds with
  | nil =>
    have : isDig 'T' = false := by decide
    simp [List.takeWhile_cons, this]
  | cons d dt ih =>
    simp only [List.all_cons, Bool.and_eq_true] at h
    obtain ⟨h1, h2⟩ := h
    simp [List.takeWhile_cons, h1, ih h2]

theorem tSuffix_decomp (pre ds ws : Str)
    (hds : ds ≠ []) (hdig : ds.all isDig = true) (hws : ws.all isSpc = true) :
    tSuffix (pre ++ ['(', 'T'] ++ ds ++ [')'] ++ ws) = some (ds, pre) := by
  have h1 : dropTrailSpc (pre ++ ['(', 'T'] ++ ds ++ [')'] ++ ws)
      = (pre ++ ['(', 'T'] ++ ds) ++ [')'] := by
    have e : pre ++ ['(', 'T'] ++ ds ++ [')'] ++ ws
        = ((pre ++ ['(', 'T'] ++ ds) ++ [')']) ++ ws := by simp
    rw [e, dropTrailSpc_append _ _ hws, dropTrailSpc_concat]
    decide
  have hrevdig : ds.reverse.all isDig = true := by
    rw [List.all_eq_true] at hdig ⊢
    intro x hx
    exact hdig x (List.mem_reverse.mp hx)
  have h2 : ((pre ++ ['(', 'T'] ++ ds) ++ [')']).reverse
      = ')' :: (ds.reverse ++ 'T' :: '(' :: pre.reverse) := by
    simp
  have h3 : (ds.reverse ++ 'T' :: '(' :: pre.reverse).takeWhile isDig = ds.reverse :=
    takeWhile_digits ds.reverse ('(' :: pre.reverse) hrevdig
  have h4 : (ds.reverse ++ 'T' :: '(' :: pre.reverse).drop ds.reverse.length
      = 'T' :: '(' :: pre.reverse :=
    List.drop_left ds.reverse ('T' :: '(' :: pre.reverse)
  have h5 : ds.reverse ≠ [] := by simpa using hds
  unfold tSuffix
  rw [h1, h2]
  simp only [h3, h4, List.reverse_reverse]
  rw [if_neg h5]

theorem tSuffix_digits (raw ds pre : Str) (h : tSuffix raw = some (ds, pre)) :
    ds ≠ [] ∧ ds.all isDig = true := by
  unfold tSuffix at h
  split at h
  · next t heq =>
    split at h
    · next rest heq2 =>
      by_cases he : t.takeWhile isDig = []
      · rw [if_pos he] at h
        exact absurd h (by simp)
      · rw [if_neg he] at h
        simp only [Option.some.injEq, Prod.mk.injEq] at h
        obtain ⟨h1, -⟩ := h
        subst h1
        refine ⟨by simpa using he, ?_⟩
        rw [List.all_eq_true]
        intro c hc
        exact List.mem_takeWhile_imp (List.mem_reverse.mp hc)
    · exact absurd h (by simp)
  · exact absurd h (by simp)

theorem codeEntry_override (raw nm tn : Str) (h : codeEntry raw = (nm, some tn)) :
    ∃ pre, tSuffix raw = some (tn, pre) := by
  unfold codeEntry at h
  split at h
  · next ds pre heq =>
    simp only [Prod.mk.injEq, Option.some.injEq] at h
    exact ⟨pre, by rw [heq, h.2]⟩
  · next heq => simp at h

/-- Every tactic override recorded by the Code Index Builder is a
nonempty digit string. -/
theorem codeIndex_override_digits (codes : List (Str × Str)) :
    ∀ cid t, dictGet cid (buildCodeIndex codes).2 = some t → t ≠ [] ∧ t.all isDig = true := by
  have aux : ∀ (cs : List (Str × Str)) (acc : List (Str × Str) × List (Str × Str)),
      (∀ cid t, dictGet cid acc.2 = some t → t ≠ [] ∧ t.all isDig = true) →
      ∀ cid t, dictGet cid (cs.foldl codeStep acc).2 = some t → t ≠ [] ∧ t.all isDig = true := by
    intro cs
    induction cs with
    | nil => intro acc h; simpa using h
    | cons c cs ih =>
      intro acc h
      rw [List.foldl_cons]
      apply ih
      unfold codeStep
      cases hce : codeEntry c.2 with
      | mk nm ov =>
        cases ov with
        | some tn =>
          simp only []
          obtain ⟨pre, hts⟩ := codeEntry_override c.2 nm tn hce
          obtain ⟨hne, hdig⟩ := tSuffix_digits c.2 tn pre hts
          exact dictGet_dictInsert_inv (fun t => t ≠ [] ∧ t.all isDig = true)
            acc.2 c.1 tn h ⟨hne, hdig⟩
        | none => simpa using h
  intro cid t h
  exact aux codes ([], []) (by simp [dictGet]) cid t h

/-! ### C3: the trailing (T<digits>) suffix -/

/-- C3 counterexample: for the raw code name " a (T7)" the claim predicts
display name " a" (leading whitespace of the remainder unchanged), but
the builder records "a" — `str.strip()` removes the leading whitespace
too. -/
theorem c3_suffix_cex :
    dictGet "c1".data (buildCodeIndex [("c1".data, " a (T7)".data)]).1 = some "a".data ∧
    ("a".data : Str) ≠ " a".data := ⟨rfl, by decide⟩

/-- C3 (amended): for every code definition whose raw name, after
trimming trailing whitespace, ends in "(T" ++ digits ++ ")", the Code
Index Builder records the digits as the code's tactic override and
records as display name the rest of the raw name with the matched suffix
and any surrounding whitespace removed — trailing AND leading whitespace
of the remainder are both stripped (Python `str.strip()`). -/
theorem c3_suffix_strip (cid pre ds ws : Str)
    (hds : ds ≠ []) (hdig : ds.all isDig = true) (hws : ws.all isSpc = true) :
    buildCodeIndex [(cid, pre ++ ['(', 'T'] ++ ds ++ [')'] ++ ws)]
      = ([(cid, stripSpc pre)], [(cid, ds)]) := by
  have hts : tSuffix (pre ++ '(' :: 'T' :: (ds ++ ')' :: ws)) = some (ds, pre) := by
    have e : pre ++ '(' :: 'T' :: (ds ++ ')' :: ws)
        = pre ++ ['(', 'T'] ++ ds ++ [')'] ++ ws := by simp
    rw [e]
    exact tSuffix_decomp pre ds ws hds hdig hws
  simp [buildCodeIndex, codeStep, codeEntry, hts, dictInsert]

theorem c3_suffix_strip_witness :
    buildCodeIndex [("c9".data, " my name ".data ++ ['(', 'T'] ++ "7".data ++ [')'] ++ " ".data)]
      = ([("c9".data, stripSpc " my name ".data)], [("c9".data, "7".data)]) :=
  c3_suffix_strip "c9".data " my name ".data "7".data " ".data (by decide) (by decide) (by decide)

/-! ### C10: leftmost (AT<digits>) marker wins -/

/-- The scan of `atMarker` returns the match at position `i` when every
earlier position fails to match. -/
theorem atMarker_from (s : Str) : ∀ (i : Nat) (d : Str),
    tryAt (List.drop i s) = some d → (∀ k, k < i → tryAt (List.drop k s) = none) →
    atMarker s = some d := by
  intro i
  induction i generalizing s with
  | zero =>
    intro d hd _
    cases s with
    | nil => simp [tryAt] at hd
    | cons c rest =>
      simp only [List.drop_zero] at hd
      simp [atMarker, hd]
  | succ n ih =>
    intro d hd hmin
    cases s with
    | nil => simp [tryAt] at hd
    | cons c rest =>
      have h0 : tryAt (c :: rest) = none := by simpa using hmin 0 (Nat.succ_pos n)
      have hs : atMarker (c :: rest) = atMarker rest := by simp [atMarker, h0]
      rw [hs]
      exact ih rest d (by simpa using hd)
        (fun k hk => by simpa using hmin (k + 1) (Nat.succ_lt_succ hk))

/-- C10: if a quotation's raw name carries markers at two positions, the
extracted tactic number is the digits of the leftmost occurrence; the
later occurrence is ignored. -/
theorem c10_leftmost_marker (s : Str) (i j : Nat) (d d' : Str)
    (hij : i < j)
    (hi : tryAt (List.drop i s) = some d)
    (hj : tryAt (List.drop j s) = some d')
    (hmin : ∀ k, k < i → tryAt (List.drop k s) = none) :
    atMarker s = some d :=
  atMarker_from s i d hi hmin

theorem c10_leftmost_marker_witness :
    atMarker "(AT2)x(AT5)".data = some "2".data :=
  c10_leftmost_marker "(AT2)x(AT5)".data 0 6 "2".data "5".data (by decide) (by decide)
    (by decide) (fun k hk => absurd hk (Nat.not_lt_zero k))

/-! ### C4: an override always wins over the marker fallback -/

/-- C4: a coding link whose code id has a tactic override is assigned
that override: the aggregator adds the code id to the override's bucket,
whatever the quotation index holds (the fallback is never consulted,
since overrides are nonempty digit strings and hence truthy). -/
theorem c4_override_wins (codes : List (Str × Str)) (quotes : List Quote)
    (m : List (Str × List Str)) (cid qid t : Str)
    (h : dictGet cid (buildCodeIndex codes).2 = some t) :
    processLink quotes (buildCodeIndex codes).2 m (cid, qid) = .ok (addCid m t cid) := by
  obtain ⟨hne, -⟩ := codeIndex_override_digits codes cid t h
  simp [processLink, h, hne]

theorem c4_override_wins_witness :
    processLink (buildQuotes [("q1".data, "(AT9)".data)])
      (buildCodeIndex [("c1".data, "n (T4)".data)]).2 [] ("c1".data, "q1".data)
      = .ok (addCid [] "4".data "c1".data) :=
  c4_override_wins [("c1".data, "n (T4)".data)] (buildQuotes [("q1".data, "(AT9)".data)])
    [] "c1".data "q1".data "4".data (by rfl)

/-! ### C5: coding links with an unknown qRef -/

/-- C5 counterexample: a link whose code carries a tactic override is
processed successfully even though its qRef is absent from the quotation
index — the Python `or` short-circuits before `find_tactic_for` runs, so
the claimed unconditional lookup failure does not happen. -/
theorem c5_missing_quotation_cex :
    dictGet "q9".data (quotes_by_id (buildQuotes [])) = none ∧
    tactic_codes (buildQuotes []) (buildCodeIndex [("c1".data, "x (T4)".data)]).2
      [("c1".data, "q9".data)] [] = .ok [("4".data, ["c1".data])] := ⟨rfl, rfl⟩

/-- C5 (amended): a coding link whose code id has NO tactic override and
whose qRef is absent from the quotation index fails with a lookup error
(KeyError) rather than producing a result. -/
theorem c5_missing_quotation (quotes : List Quote) (c2o : List (Str × Str))
    (m : List (Str × List Str)) (cid qid : Str)
    (hov : dictGet cid c2o = none)
    (hq : dictGet qid (quotes_by_id quotes) = none) :
    processLink quotes c2o m (cid, qid) = .error .keyError := by
  simp [processLink, find_tactic_for, hov, hq]

theorem c5_missing_quotation_witness :
    processLink (buildQuotes []) [] [] ("c1".data, "q9".data) = .error .keyError :=
  c5_missing_quotation (buildQuotes []) [] [] "c1".data "q9".data rfl rfl

/-! ### C9: links resolving to no tactic are discarded -/

/-- C9: a coding link whose code has no tactic override and whose
quotation resolves to no tactic contributes nothing: the accumulated
tactic-to-code-set mapping is returned unchanged. -/
theorem c9_no_tactic_frame (quotes : List Quote) (c2o : List (Str × Str))
    (m : List (Str × List Str)) (cid qid : Str)
    (hov : dictGet cid c2o = none)
    (hfb : find_tactic_for quotes qid = .ok none) :
    processLink quotes c2o m (cid, qid) = .ok m := by
  simp [processLink, hov, hfb]

theorem c9_no_tactic_frame_witness :
    processLink (buildQuotes [("q1".data, "hello".data)]) [] [("5".data, ["cx".data])]
      ("c7".data, "q1".data) = .ok [("5".data, ["cx".data])] :=
  c9_no_tactic_frame (buildQuotes [("q1".data, "hello".data)]) [] [("5".data, ["cx".data])]
    "c7".data "q1".data rfl rfl

/-! ### C7: non-numeric tactic keys make the sort step fatal -/

/-- C7: if any tactic key in the output mapping is not a valid integer
string, the row-sorting step fails with a ValueError instead of sorting
incorrectly or dropping the row. -/
theorem c7_sort_fatal (rows : List (Str × List Str)) (r : Str × List Str)
    (hr : r ∈ rows) (hbad : pyInt? r.1 = none) :
    sortRows rows = .error .valueError := by
  have hall : rows.all (fun p => (pyInt? p.1).isSome) = false :=
    List.all_eq_false.mpr ⟨r, hr, by simp [hbad]⟩
  simp [sortRows, hall]

theorem c7_sort_fatal_witness :
    sortRows [("x".data, [])] = .error .valueError :=
  c7_sort_fatal [("x".data, [])] ("x".data, []) (List.mem_singleton.mpr rfl) (by rfl)

/-! ### C8: numeric row ordering -/

/-- C8 counterexample: "99999999999999999999" is a valid integer string
(`int()` parses it), yet the `astype(int)` conversion to `int64` raises
OverflowError at the sort step instead of producing ordered rows — the
key is reachable via a code named e.g. "x (T99999999999999999999)". -/
theorem c8_overflow_cex :
    pyInt? "99999999999999999999".data = some 99999999999999999999 ∧
    sortRows [("99999999999999999999".data, [])] = .error .overflowError := ⟨rfl, rfl⟩

/-- C8 (amended): when every tactic key is a valid integer string whose
value fits in a signed 64-bit integer, sorting succeeds and the rows are
ordered by ascending integer interpretation of the key — in particular
tactic "10" sorts after "9", although lexicographic string order would
place "10" first; a valid integer key outside the int64 range instead
aborts the sort step with an OverflowError. -/
theorem c8_numeric_sort_int64 :
    (∀ rows : List (Str × List Str),
      (∀ r ∈ rows, (pyInt? r.1).isSome = true) →
      (∀ r ∈ rows, int64Min ≤ (pyInt? r.1).getD 0 ∧ (pyInt? r.1).getD 0 ≤ int64Max) →
      ∃ l, sortRows rows = .ok l ∧ l.Perm rows ∧
        l.Pairwise (fun a b => ∀ x y, pyInt? a.1 = some x → pyInt? b.1 = some y → x ≤ y)) ∧
    (∀ (rows : List (Str × List Str)) (r : Str × List Str),
      r ∈ rows →
      (∀ r' ∈ rows, (pyInt? r'.1).isSome = true) →
      ¬ (int64Min ≤ (pyInt? r.1).getD 0 ∧ (pyInt? r.1).getD 0 ≤ int64Max) →
      sortRows rows = .error .overflowError) ∧
    sortRows [("9".data, []), ("10".data, [])] = .ok [("9".data, []), ("10".data, [])] ∧
    strLe "10".data "9".data = true := by
  refine ⟨?_, ?_, rfl, by decide⟩
  · intro rows hall hrange
    have hb : rows.all (fun p => (pyInt? p.1).isSome) = true :=
      List.all_eq_true.mpr (fun r hr => hall r hr)
    have hb2 : rows.all (fun p =>
        decide (int64Min ≤ (pyInt? p.1).getD 0 ∧ (pyInt? p.1).getD 0 ≤ int64Max)) = true :=
      List.all_eq_true.mpr (fun r hr => decide_eq_true (hrange r hr))
    refine ⟨sortBy (fun a b => decide ((pyInt? a.1).getD 0 ≤ (pyInt? b.1).getD 0)) rows,
      ?_, sortBy_perm _ rows, ?_⟩
    · unfold sortRows
      rw [if_pos hb, if_pos hb2]
    have hp := pairwise_sortBy (fun a b => decide ((pyInt? a.1).getD 0 ≤ (pyInt? b.1).getD 0))
      (fun a b c h1 h2 => by
        simp only [decide_eq_true_eq] at h1 h2 ⊢
        exact le_trans h1 h2)
      (fun a b => by
        simp only [decide_eq_true_eq]
        exact le_total _ _)
      rows
    refine hp.imp ?_
    intro a b hab x y hx hy
    simp only [decide_eq_true_eq] at hab
    rw [hx, hy] at hab
    simpa using hab
  · intro rows r hr hall hout
    have hb : rows.all (fun p => (pyInt? p.1).isSome) = true :=
      List.all_eq_true.mpr (fun r' hr' => hall r' hr')
    have hb2 : rows.all (fun p =>
        decide (int64Min ≤ (pyInt? p.1).getD 0 ∧ (pyInt? p.1).getD 0 ≤ int64Max)) = false :=
      List.all_eq_false.mpr ⟨r, hr, fun hd => hout (of_decide_eq_true hd)⟩
    have hneg : ¬ (rows.all (fun p =>
        decide (int64Min ≤ (pyInt? p.1).getD 0 ∧ (pyInt? p.1).getD 0 ≤ int64Max)) = true) := by
      rw [hb2]
      exact Bool.false_ne_true
    unfold sortRows
    rw [if_pos hb, if_neg hneg]

theorem c8_numeric_sort_int64_witness :
    (∃ l, sortRows [("2".data, ([] : List Str)), ("1".data, [])] = .ok l ∧
      l.Perm [("2".data, []), ("1".data, [])] ∧
      l.Pairwise (fun a b => ∀ x y, pyInt? a.1 = some x → pyInt? b.1 = some y → x ≤ y)) ∧
    sortRows [("99999999999999999999".data, []), ("1".data, [])] = .error .overflowError :=
  ⟨c8_numeric_sort_int64.1 [("2".data, []), ("1".data, [])] (by decide) (by decide),
   c8_numeric_sort_int64.2.1 [("99999999999999999999".data, []), ("1".data, [])]
     ("99999999999999999999".data, []) (List.mem_cons_self _ _) (by decide) (by decide)⟩

/-! ### C1: marker fallback resolution -/

theorem title_quotes_sorted (quotes : List Quote) :
    (title_quotes quotes).Pairwise (fun a b => a.order ≤ b.order) := by
  have hp := pairwise_sortBy (fun a b : Quote => decide (a.order ≤ b.order))
    (fun a b c h1 h2 => by
      simp only [decide_eq_true_eq] at h1 h2 ⊢
      omega)
    (fun a b => by
      simp only [decide_eq_true_eq]
      omega)
    (quotes.filter (fun q => qTruthy q.tactic))
  exact hp.imp (fun h => by simpa using h)

theorem mem_title_quotes (quotes : List Quote) (tq : Quote) :
    tq ∈ title_quotes quotes ↔ tq ∈ quotes ∧ qTruthy tq.tactic = true := by
  unfold title_quotes
  rw [mem_sortBy, List.mem_filter]

/-- The five-quotation example from the specification: orders 0..4 with
marker "(AT2)" at order 1 and "(AT5)" at order 3. -/
def exQuotes : List Quote :=
  buildQuotes [("0".data, "q0".data), ("1".data, "a (AT2)".data), ("2".data, "q2".data),
    ("3".data, "(AT5)".data), ("4".data, "q4".data)]

/-- C1: for every quotation id present in the quotation index,
`find_tactic_for` returns the tactic of a marker-carrying (title)
quotation of maximal order among those with order ≤ the target's order,
and returns `none` exactly when every title quotation's order strictly
exceeds the target's; in particular, on quotations with orders
[0,1,2,3,4] where order 1 carries "(AT2)" and order 3 carries "(AT5)",
resolution yields absent, "2", "2", "5", "5". -/
theorem c1_resolution :
    (∀ (quotes : List Quote) (qid : Str) (q : Quote),
      dictGet qid (quotes_by_id quotes) = some q →
      (find_tactic_for quotes qid = .ok none ↔
        ∀ tq ∈ quotes, qTruthy tq.tactic = true → q.order < tq.order) ∧
      (∀ t, find_tactic_for quotes qid = .ok (some t) →
        ∃ tq, tq ∈ quotes ∧ tq.tactic = some t ∧ tq.order ≤ q.order ∧
          ∀ tq' ∈ quotes, qTruthy tq'.tactic = true → tq'.order ≤ q.order →
            tq'.order ≤ tq.order)) ∧
    (find_tactic_for exQuotes "0".data = .ok none ∧
     find_tactic_for exQuotes "1".data = .ok (some "2".data) ∧
     find_tactic_for exQuotes "2".data = .ok (some "2".data) ∧
     find_tactic_for exQuotes "3".data = .ok (some "5".data) ∧
     find_tactic_for exQuotes "4".data = .ok (some "5".data)) := by
  constructor
  · intro quotes qid q hq
    have hrev : ((title_quotes quotes).reverse).Pairwise (fun a b => b.order ≤ a.order) :=
      List.pairwise_reverse.mpr (title_quotes_sorted quotes)
    have hf : find_tactic_for quotes qid
        = .ok (((title_quotes quotes).reverse.find?
            (fun tq => decide (tq.order ≤ q.order))).bind Quote.tactic) := by
      simp [find_tactic_for, hq]
    cases hfind : (title_quotes quotes).reverse.find? (fun tq => decide (tq.order ≤ q.order)) with
    | none =>
      rw [hfind] at hf
      constructor
      · constructor
        · intro _ tq htq htr
          have h1 : tq ∈ (title_quotes quotes).reverse :=
            List.mem_reverse.mpr ((mem_title_quotes quotes tq).mpr ⟨htq, htr⟩)
          exact find?_le_none q.order _ hfind tq h1
        · intro _
          exact hf
      · intro t ht
        rw [hf] at ht
        exact absurd ht (by simp)
    | some tq0 =>
      obtain ⟨h1, h2, h3⟩ := find?_le_some q.order _ tq0 hrev hfind
      have h1' : tq0 ∈ title_quotes quotes := List.mem_reverse.mp h1
      obtain ⟨hmem, htru⟩ := (mem_title_quotes quotes tq0).mp h1'
      obtain ⟨t0, ht0⟩ : ∃ t0, tq0.tactic = some t0 := by
        cases hc : tq0.tactic with
        | some s => exact ⟨s, rfl⟩
        | none => rw [hc] at htru; simp [qTruthy] at htru
      rw [hfind] at hf
      simp only [Option.some_bind] at hf
      rw [ht0] at hf
      constructor
      · rw [hf]
        constructor
        · intro he
          exact absurd he (by simp)
        · intro hall
          exact absurd (hall tq0 hmem htru) (by omega)
      · intro t ht
        rw [hf] at ht
        obtain rfl : t0 = t := by simpa using ht
        refine ⟨tq0, hmem, ht0, h2, ?_⟩
        intro tq' htq' htr' hle'
        exact h3 tq' (List.mem_reverse.mpr ((mem_title_quotes quotes tq').mpr ⟨htq', htr'⟩)) hle'
  · exact ⟨rfl, rfl, rfl, rfl, rfl⟩

theorem c1_resolution_witness :
    dictGet "2".data (quotes_by_id exQuotes) = some (Quote.mk "2".data 2 none) ∧
    ((find_tactic_for exQuotes "2".data = .ok none ↔
      ∀ tq ∈ exQuotes, qTruthy tq.tactic = true →
        (Quote.mk "2".data 2 none).order < tq.order) ∧
     (∀ t, find_tactic_for exQuotes "2".data = .ok (some t) →
      ∃ tq, tq ∈ exQuotes ∧ tq.tactic = some t ∧
        tq.order ≤ (Quote.mk "2".data 2 none).order ∧
        ∀ tq' ∈ exQuotes, qTruthy tq'.tactic = true →
          tq'.order ≤ (Quote.mk "2".data 2 none).order → tq'.order ≤ tq.order)) :=
  ⟨rfl, c1_resolution.1 exQuotes "2".data (Quote.mk "2".data 2 none) rfl⟩

/-! ### C2: cell contents -/

theorem strLe_total (a : Str) : ∀ b : Str, strLe a b = true ∨ strLe b a = true := by
  induction a with
  | nil => intro b; left; rfl
  | cons x xs ih =>
    intro b
    cases b with
    | nil => right; rfl
    | cons y ys =>
      by_cases hxy : x = y
      · subst hxy
        rcases ih ys with h | h
        · left; simpa [strLe] using h
        · right; simpa [strLe] using h
      · rcases lt_or_gt_of_ne hxy with h | h
        · left; simp [strLe, hxy, h]
        · right
          have hyx : ¬ y = x := fun e => hxy e.symm
          simp [strLe, hyx, h]

theorem strLe_trans (a : Str) : ∀ b c : Str,
    strLe a b = true → strLe b c = true → strLe a c = true := by
  induction a with
  | nil => intro b c _ _; rfl
  | cons x xs ih =>
    intro b c hab hbc
    cases b with
    | nil => simp [strLe] at hab
    | cons y ys =>
      cases c with
      | nil => simp [strLe] at hbc
      | cons z zs =>
        by_cases hxy : x = y
        · subst hxy
          by_cases hyz : x = z
          · subst hyz
            simp only [strLe, if_pos rfl] at hab hbc ⊢
            exact ih ys zs hab hbc
          · simp only [strLe, if_pos rfl] at hab
            simp only [strLe, if_neg hyz] at hbc ⊢
            exact hbc
        · simp only [strLe, if_neg hxy] at hab
          rw [decide_eq_true_eq] at hab
          by_cases hyz : y = z
          · subst hyz
            simp [strLe, hxy, hab]
          · simp only [strLe, if_neg hyz] at hbc
            rw [decide_eq_true_eq] at hbc
            have hxz : x < z := lt_trans hab hbc
            have hne : ¬ x = z := ne_of_lt hxz
            simp [strLe, hne, hxz]

theorem namesOf_ok (c2n : List (Str × Str)) :
    ∀ l ns, namesOf c2n l = .ok ns → ns = l.map (fun c => (dictGet c c2n).getD []) := by
  intro l
  induction l with
  | nil =>
    intro ns h
    simp only [namesOf] at h
    obtain rfl : ([] : List Str) = ns := by simpa using h
    simp
  | cons c cs ih =>
    intro ns h
    simp only [namesOf] at h
    cases hg : dictGet c c2n with
    | none => rw [hg] at h; exact absurd h (by simp)
    | some n =>
      rw [hg] at h
      cases hrec : namesOf c2n cs with
      | error e => rw [hrec] at h; exact absurd h (by simp)
      | ok ms =>
        rw [hrec] at h
        obtain rfl : n :: ms = ns := by simpa using h
        rw [List.map_cons, hg, ih ms hrec]
        rfl

/-- Concrete input refuting C2: code ids "c1" < "c2" but display names
"z" > "a", so the cell lists "z" before "a". -/
def c2Input : Input :=
  ⟨[("c1".data, "z".data), ("c2".data, "a".data)],
   [("q1".data, "(AT3)".data)],
   [("f1".data, "1. Title".data, ["c1".data, "c2".data])],
   [("c1".data, "q1".data), ("c2".data, "q1".data)]⟩

/-- C2 counterexample: the claim predicts the cell "a; z" (display names
sorted lexicographically), but the code sorts the code IDS and only then
maps them to display names, producing "z; a". -/
theorem c2_cell_cex :
    runPipeline c2Input
      = .ok ⟨cols12, [("3".data, "z; a".data :: List.replicate 11 [])]⟩ ∧
    ("z; a".data : Str) ≠ "a; z".data := ⟨rfl, by decide⟩

/-- C2 (amended): every cell is the display names of the codes in the
intersection of the tactic's code set with the family's member set,
sorted lexicographically by CODE ID (not by display name), joined with
"; ". `cellFor` is the per-(tactic, family) cell computation of the
output loop. -/
theorem c2_cell_content (c2n : List (Str × Str)) (cids famIds : List Str) (cell : Str)
    (h : cellFor c2n cids famIds = .ok cell) :
    ∃ hits : List Str,
      (∀ c, c ∈ hits ↔ c ∈ cids ∧ c ∈ famIds) ∧
      hits.Pairwise (fun a b => strLe a b = true) ∧
      hits.Nodup ∧
      cell = joinSep ("; ".data) (hits.map (fun c => (dictGet c c2n).getD [])) := by
  refine ⟨sortStr ((cids.filter (fun c => decide (c ∈ famIds))).dedup), ?_, ?_, ?_, ?_⟩
  · intro c
    rw [sortStr, mem_sortBy, List.mem_dedup, List.mem_filter]
    simp
  · exact pairwise_sortBy strLe strLe_trans strLe_total _
  · exact nodup_sortBy _ _ (List.nodup_dedup _)
  · unfold cellFor at h
    cases hn : namesOf c2n (sortStr ((cids.filter (fun c => decide (c ∈ famIds))).dedup)) with
    | error e => rw [hn] at h; exact absurd h (by simp)
    | ok ns =>
      rw [hn] at h
      have hcell : cell = joinSep ("; ".data) ns := by simpa using h.symm
      rw [hcell, namesOf_ok c2n _ ns hn]

theorem c2_cell_content_witness :
    ∃ hits : List Str,
      (∀ c, c ∈ hits ↔ c ∈ ["c1".data, "c2".data] ∧ c ∈ ["c1".data, "c2".data]) ∧
      hits.Pairwise (fun a b => strLe a b = true) ∧
      hits.Nodup ∧
      "z; a".data = joinSep ("; ".data)
        (hits.map (fun c => (dictGet c (buildCodeIndex c2Input.codes).1).getD [])) :=
  c2_cell_content (buildCodeIndex c2Input.codes).1 ["c1".data, "c2".data]
    ["c1".data, "c2".data] "z; a".data rfl

/-! ### C6: the twelve fixed columns -/

theorem mem_dictInsert_values {β : Type} (Q : β → Prop) (m : List (Str × β)) (k : Str) (v : β)
    (hm : ∀ e ∈ m, Q e.2) (hv : Q v) : ∀ e ∈ dictInsert m k v, Q e.2 := by
  induction m with
  | nil =>
    intro e he
    obtain rfl : e = (k, v) := by simpa [dictInsert] using he
    exact hv
  | cons a rest ih =>
    intro e he
    by_cases h1 : a.1 = k
    · simp only [dictInsert, if_pos h1] at he
      rcases List.mem_cons.mp he with rfl | he
      · exact hv
      · exact hm e (List.mem_cons_of_mem a he)
    · simp only [dictInsert, if_neg h1] at he
      rcases List.mem_cons.mp he with rfl | he
      · exact hm a (List.mem_cons_self a rest)
      · exact ih (fun x hx => hm x (List.mem_cons_of_mem a hx)) e he

/-- Every (name, members) value in the family dict comes from some input
family definition. -/
theorem buildFamilies_values (l : List (Str × Str × List Str)) :
    ∀ f ∈ buildFamilies l, ∃ x ∈ l, f.2 = x.2 := by
  have aux : ∀ (ls acc : List (Str × Str × List Str)) (Q : Str × List Str → Prop),
      (∀ f ∈ acc, Q f.2) → (∀ x ∈ ls, Q x.2) →
      ∀ f ∈ ls.foldl (fun m f => dictInsert m f.1 f.2) acc, Q f.2 := by
    intro ls
    induction ls with
    | nil => intro acc Q hacc _; simpa using hacc
    | cons x xs ih =>
      intro acc Q hacc hls
      rw [List.foldl_cons]
      refine ih _ Q ?_ (fun y hy => hls y (List.mem_cons_of_mem x hy))
      exact mem_dictInsert_values Q acc x.1 x.2 hacc (hls x (List.mem_cons_self x xs))
  intro f hf
  exact aux l [] (fun v => ∃ x ∈ l, v = x.2) (by simp) (fun x hx => ⟨x, hx, rfl⟩) f hf

/-- A key absent from the family names of the row loop never enters the
row dict. -/
theorem buildRow_keys (c2n : List (Str × Str)) (cids : List Str) :
    ∀ (fams : List (Str × Str × List Str)) (row0 row : List (Str × Str)) (k : Str),
      buildRow c2n cids fams row0 = .ok row →
      dictGet k row0 = none → (∀ f ∈ fams, f.2.1 ≠ k) → dictGet k row = none := by
  intro fams
  induction fams with
  | nil =>
    intro row0 row k h h0 _
    simp only [buildRow] at h
    obtain rfl : row0 = row := by simpa using h
    exact h0
  | cons f fs ih =>
    intro row0 row k h h0 hne
    simp only [buildRow] at h
    cases hc : cellFor c2n cids f.2.2 with
    | error e => rw [hc] at h; exact absurd h (by simp)
    | ok cell =>
      rw [hc] at h
      refine ih _ row k h ?_ (fun g hg => hne g (List.mem_cons_of_mem f hg))
      rw [dictGet_dictInsert]
      have hfk : f.2.1 ≠ k := hne f (List.mem_cons_self f fs)
      simp [hfk, h0]

/-- Every row produced by the output loop was built by the row loop from
an empty dict. -/
theorem buildOutput_rows (c2n : List (Str × Str)) (fams : List (Str × Str × List Str)) :
    ∀ (tc : List (Str × List Str)) (out : List (Str × List (Str × Str))),
      buildOutput c2n fams tc = .ok out →
      ∀ r ∈ out, ∃ cids, buildRow c2n cids fams [] = .ok r.2 := by
  intro tc
  induction tc with
  | nil =>
    intro out h r hr
    simp only [buildOutput] at h
    obtain rfl : ([] : List (Str × List (Str × Str))) = out := by simpa using h
    simp at hr
  | cons p ps ih =>
    intro out h r hr
    obtain ⟨tac, cids⟩ := p
    simp only [buildOutput] at h
    cases hb : buildRow c2n cids fams [] with
    | error e => rw [hb] at h; exact absurd h (by simp)
    | ok row =>
      rw [hb] at h
      cases hrec : buildOutput c2n fams ps with
      | error e => rw [hrec] at h; exact absurd h (by simp)
      | ok rest =>
        rw [hrec] at h
        obtain rfl : (tac, row) :: rest = out := by simpa using h
        rcases List.mem_cons.mp hr with rfl | hr
        · exact ⟨cids, hb⟩
        · exact ih rest hrec r hr

/-- C6: a successful run produces a table whose headers are exactly the
twelve fixed column names in order, whose every row has twelve cells, and
in which any column whose name does not occur among the input's family
names is entirely empty. -/
theorem c6_twelve_columns (inp : Input) (t : Table)
    (h : runPipeline inp = .ok t) :
    t.headers = cols12 ∧ cols12.length = 12 ∧
    (∀ row ∈ t.rows, row.2.length = 12) ∧
    (∀ col, (∀ f ∈ inp.families, f.2.1 ≠ col) →
      ∀ row ∈ t.rows, ∀ i, cols12.get? i = some col → row.2.get? i = some []) := by
  simp only [runPipeline] at h
  split at h
  · exact absurd h (by simp)
  · next tc htc =>
    split at h
    · exact absurd h (by simp)
    · next out hout =>
      split at h
      · exact absurd h (by simp)
      · next sorted hsort =>
        obtain rfl : Table.mk cols12 sorted = t := by simpa using h
        have hmem : ∀ r, r ∈ sorted → r ∈ out.map (fun r => (r.1, reindexRow r.2)) := by
          unfold sortRows at hsort
          by_cases hc : (out.map (fun r => (r.1, reindexRow r.2))).all
              (fun p => (pyInt? p.1).isSome)
          · rw [if_pos hc] at hsort
            by_cases hc2 : (out.map (fun r => (r.1, reindexRow r.2))).all (fun p =>
                decide (int64Min ≤ (pyInt? p.1).getD 0 ∧ (pyInt? p.1).getD 0 ≤ int64Max))
            · rw [if_pos hc2] at hsort
              obtain rfl : sortBy (fun a b => decide ((pyInt? a.1).getD 0 ≤ (pyInt? b.1).getD 0))
                  (out.map (fun r => (r.1, reindexRow r.2))) = sorted := by simpa using hsort
              intro r hr
              exact (mem_sortBy _ r _).mp hr
            · rw [if_neg hc2] at hsort
              exact absurd hsort (by simp)
          · rw [if_neg hc] at hsort
            exact absurd hsort (by simp)
        refine ⟨rfl, rfl, ?_, ?_⟩
        · intro row hrow
          obtain ⟨r0, -, heq⟩ := List.mem_map.mp (hmem row hrow)
          rw [← heq]
          simp [reindexRow, cols12]
        · intro col hcol row hrow i hi
          obtain ⟨r0, hr0, heq⟩ := List.mem_map.mp (hmem row hrow)
          obtain ⟨cids, hbr⟩ := buildOutput_rows _ _ tc out hout r0 hr0
          have hnone : dictGet col r0.2 = none := by
            refine buildRow_keys _ _ (buildFamilies inp.families) [] r0.2 col hbr rfl ?_
            intro f hf
            obtain ⟨x, hx, he⟩ := buildFamilies_values inp.families f hf
            have : f.2.1 = x.2.1 := by rw [he]
            rw [this]
            exact hcol x hx
          rw [← heq]
          show (reindexRow r0.2).get? i = some []
          unfold reindexRow
          rw [List.get?_map, hi]
          simp [hnone]

theorem c6_twelve_columns_witness :
    (Table.mk cols12 [("3".data, "z; a".data :: List.replicate 11 [])]).headers = cols12 ∧
    cols12.length = 12 ∧
    (∀ row ∈ (Table.mk cols12 [("3".data, "z; a".data :: List.replicate 11 [])]).rows,
      row.2.length = 12) ∧
    (∀ col, (∀ f ∈ c2Input.families, f.2.1 ≠ col) →
      ∀ row ∈ (Table.mk cols12 [("3".data, "z; a".data :: List.replicate 11 [])]).rows,
        ∀ i, cols12.get? i = some col → row.2.get? i = some []) :=
  c6_twelve_columns c2Input
    (Table.mk cols12 [("3".data, "z; a".data :: List.replicate 11 [])]) rfl
